import Mathlib

/-!
Shallow embedding of `src/main.rs` (a noisy iterated prisoner's dilemma
tournament ranked by a PageRank-style power iteration), together with
theorems settling the frozen claims about it.

Modelling conventions:
* Rust `f64` values are modelled as `ℚ`; every float the program computes
  stays well inside the range where `f64` ordering and the claims'
  arithmetic agree, and no claim depends on rounding of `f64` operations.
* `u64` scores are modelled as `ℕ` (they stay far below 2^64: each matrix
  entry is at most 30000, see C10).
* Randomness (`thread_rng().gen_range(..)`) is modelled by explicit draw
  oracles: a function giving the value of the k-th draw. The program draws
  one uniform value per `flip` call (two per turn), one noise level per
  round, and strategies such as `Constant` are modelled as arbitrary
  functions of the histories (their internal coin is part of the oracle).
* `assert!` failures (Rust panics) are modelled with `Option`: `none`
  means the assertion fired.
-/

namespace Noisy

/-- The two-symbol move alphabet of `enum Move` in main.rs. -/
inductive Move
  | Cooperate
  | Defect
deriving DecidableEq, Repr

/-- Rust `Move::opposite` (main.rs lines 15-20). -/
def Move.opposite : Move → Move
  | .Cooperate => .Defect
  | .Defect => .Cooperate

/-- The branch of `Move::flip` taken once the two asserts pass: the body
`if thread_rng().gen_range(0., 1.) < prob { self.opposite() } else { self }`
with the uniform draw made explicit. -/
def flipDraw (m : Move) (prob draw : ℚ) : Move :=
  if draw < prob then m.opposite else m

/-- Rust `Move::flip` (main.rs lines 21-29): `assert!(0. <= prob)` and
`assert!(0.5 >= prob)` guard the body; a failed assert is a panic,
modelled as `none`. `draw` is the value of `thread_rng().gen_range(0., 1.)`. -/
def Move.flip (m : Move) (prob draw : ℚ) : Option Move :=
  if 0 ≤ prob ∧ prob ≤ 1/2 then some (flipDraw m prob draw) else none

/-- Rust `single_score` (main.rs lines 32-39): the prisoner's dilemma
payoff table. -/
def single_score : Move → Move → ℕ × ℕ
  | .Cooperate, .Cooperate => (2, 2)
  | .Cooperate, .Defect => (0, 3)
  | .Defect, .Cooperate => (3, 0)
  | .Defect, .Defect => (1, 1)

/-- The `Player` trait capability: a decision function from
(own clean history, opponent's noisy history) to the next move.
Stochastic players (`Constant`) are particular oracle instances. -/
abbrev Strategy := List Move → List Move → Move

/-- Rust `TitForTat::play` (main.rs lines 148-163). The first argument
pair mirrors `(&self.default, self.delay)`; `my` is the ignored
`_my_moves`, `their` is `their_noisy_moves`. The slice
`their_noisy_moves[len - delay ..]` is `their.drop (their.length - delay)`. -/
def titForTatPlay (default : Move) (delay : ℕ) (_my their : List Move) : Move :=
  if their.length < delay then
    default
  else
    if (their.drop (their.length - delay)).any (fun m => m != default) then
      default
    else
      default.opposite

/-- Rust constant `ROUND_LENGTH` (main.rs line 6). -/
def ROUND_LENGTH : ℕ := 100

/-- Rust constant `NUM_ROUNDS` (main.rs line 7). -/
def NUM_ROUNDS : ℕ := 100

/-- The mutable local state of the loop body of `play_round`
(main.rs lines 67-87): the four histories and the two running scores. -/
structure RoundState where
  moves1 : List Move
  noisy1 : List Move
  score1 : ℕ
  moves2 : List Move
  noisy2 : List Move
  score2 : ℕ

/-- One iteration of the `for _ in 0..ROUND_LENGTH` loop of `play_round`
(main.rs lines 73-87). `t` is the turn index; the two flips of turn `t`
consume draws `2*t` and `2*t+1` of the oracle `draws`. The `prob ∈ [0, 0.5)`
check inside `Move::flip` always passes here because `play_round` draws
`prob` from `gen_range(0., 0.5)`, so the flip body `flipDraw` is used
directly (lemma `flip_eq_some_flipDraw` records the correspondence). -/
def roundStep (p1 p2 : Strategy) (prob : ℚ) (draws : ℕ → ℚ) (t : ℕ)
    (s : RoundState) : RoundState :=
  let move1 := p1 s.moves1 s.noisy2
  let move2 := p2 s.moves2 s.noisy1
  let noise1 := flipDraw move1 prob (draws (2 * t))
  let noise2 := flipDraw move2 prob (draws (2 * t + 1))
  let ss := single_score noise1 noise2
  ⟨s.moves1 ++ [move1], s.noisy1 ++ [noise1], s.score1 + ss.1,
   s.moves2 ++ [move2], s.noisy2 ++ [noise2], s.score2 + ss.2⟩

/-- The state of `play_round`'s loop after `n` turns, starting from the
empty histories and zero scores of main.rs lines 67-72. -/
def roundLoop (p1 p2 : Strategy) (prob : ℚ) (draws : ℕ → ℚ) : ℕ → RoundState
  | 0 => ⟨[], [], 0, [], [], 0⟩
  | n + 1 => roundStep p1 p2 prob draws n (roundLoop p1 p2 prob draws n)

/-- Rust `play_round` (main.rs lines 65-89): runs `ROUND_LENGTH` turns and
returns the score pair. `prob` is the round's noise level, the value of
`thread_rng().gen_range(0., 0.5)` at line 66. -/
def play_round (p1 p2 : Strategy) (prob : ℚ) (draws : ℕ → ℚ) : ℕ × ℕ :=
  let s := roundLoop p1 p2 prob draws ROUND_LENGTH
  (s.score1, s.score2)

/-- Rust `play_pair` (main.rs lines 60-63): sums the score pairs of
`NUM_ROUNDS` independent rounds. Round `r` uses noise level `probs r`
(fresh `gen_range(0., 0.5)` per round) and flip-draw oracle `draws r`. -/
def play_pair (p1 p2 : Strategy) (probs : ℕ → ℚ) (draws : ℕ → ℕ → ℚ) : ℕ × ℕ :=
  (∑ r ∈ Finset.range NUM_ROUNDS, (play_round p1 p2 (probs r) (draws r)).1,
   ∑ r ∈ Finset.range NUM_ROUNDS, (play_round p1 p2 (probs r) (draws r)).2)

/-- Point update of the score matrix: `scores[a][b] = v`
(the matrix `Vec<Vec<u64>>` is modelled as a total function). -/
def updateCell (m : ℕ → ℕ → ℕ) (a b v : ℕ) : ℕ → ℕ → ℕ :=
  fun x y => if x = a ∧ y = b then v else m x y

/-- The loop state of `play_all_pairs`: the score matrix under
construction, plus a counter of how many `play_pair` match runs have been
performed so far (the counter indexes the randomness each run consumes). -/
structure PairsState where
  scores : ℕ → ℕ → ℕ
  runs : ℕ

/-- The body of the inner loop of `play_all_pairs` (main.rs lines 52-54):
one match run for the pair `(i, j)`.
`run i j k` is the result of `play_pair(players[i], players[j])` when it is
the `k`-th match run performed (so `k` fixes which fresh randomness it
consumes); the first component is written to `scores[i][j]`, the second to
`scores[j][i]`, in that order. -/
def pairStep (run : ℕ → ℕ → ℕ → ℕ × ℕ) (i j : ℕ) (s : PairsState) : PairsState :=
  ⟨updateCell (updateCell s.scores i j (run i j s.runs).1) j i (run i j s.runs).2,
   s.runs + 1⟩

/-- The state after the first `jc` iterations (`j = 0, …, jc-1`) of the
inner loop `for j in 0..i + 1` of `play_all_pairs` (main.rs line 51). -/
def innerPairs (run : ℕ → ℕ → ℕ → ℕ × ℕ) (i : ℕ) : ℕ → PairsState → PairsState
  | 0, s => s
  | jc + 1, s => pairStep run i jc (innerPairs run i jc s)

/-- The state after the first `n` iterations (`i = 0, …, n-1`) of the outer
loop `for i in 0..players.len()` of `play_all_pairs` (main.rs line 50),
starting from the all-zero matrix of line 49. Row `i` runs its inner loop
for `j = 0, …, i`. -/
def outerPairs (run : ℕ → ℕ → ℕ → ℕ × ℕ) : ℕ → PairsState
  | 0 => ⟨fun _ _ => 0, 0⟩
  | n + 1 => innerPairs run n (n + 1) (outerPairs run n)

/-- Rust `play_all_pairs` (main.rs lines 48-58) for a roster of `n`
players, with the match runs abstracted into the oracle `run`. -/
def play_all_pairs (run : ℕ → ℕ → ℕ → ℕ × ℕ) (n : ℕ) : PairsState :=
  outerPairs run n

/-- The run counter value at which the pair `(i, j)` (with `j ≤ i`) is
played: `j` full inner loops of lengths `1, …, i` precede row `i`, and `j`
runs precede column `j` within row `i`. `triangle i = i * (i+1) / 2`. -/
def triangle : ℕ → ℕ
  | 0 => 0
  | i + 1 => triangle i + (i + 1)

/-- Run index of the match for pair `(i, j)`, `j ≤ i`. -/
def pairIdx (i j : ℕ) : ℕ := triangle i + j

/-- Rust `play_all_pairs` applied to the real roster: match run number `k`
between `players[i]` and `players[j]` consumes the per-run noise-level
oracle `probs k` and flip-draw oracle `draws k`. -/
def tournamentScores (strats : ℕ → Strategy) (probs : ℕ → ℕ → ℚ)
    (draws : ℕ → ℕ → ℕ → ℚ) (n : ℕ) : ℕ → ℕ → ℕ :=
  (play_all_pairs (fun i j k => play_pair (strats i) (strats j) (probs k) (draws k)) n).scores

/-- Rust constant `REPS` (main.rs line 98). -/
def REPS : ℕ := 5000

/-- Rust constant `ALPHA` (main.rs line 99): the `f64` exponent `1.`;
`x.powf(1.)` is `x ^ (1 : ℕ)` in the model. -/
def ALPHA : ℕ := 1

/-- The `unnorm_weights` vector of one `page_rank` iteration (main.rs
lines 103-112): entry `i` is
`weights[i] * Σ_j (scores[i][j] as f64 * weights[j]).powf(ALPHA)`.
The matrix (`Vec<Vec<u64>>`, `n` rows of `n` entries) is the function
`scores` restricted to indices below `n`; `.iter().zip(&weights)` pairs
row `i` with `weights[i]`, and the inner zip pairs `scores[i][j]` with
`weights[j]`. -/
def unnormWeights (n : ℕ) (scores : ℕ → ℕ → ℕ) (w : ℕ → ℚ) : ℕ → ℚ :=
  fun i => w i * ∑ j ∈ Finset.range n, ((scores i j : ℚ) * w j) ^ ALPHA

/-- One full iteration of the `for _ in 0..REPS` loop of `page_rank`
(main.rs lines 102-115): build `unnorm_weights`, then divide every entry
by `weights_sum = unnorm_weights.iter().sum()`. -/
def pageRankStep (n : ℕ) (scores : ℕ → ℕ → ℕ) (w : ℕ → ℚ) : ℕ → ℚ :=
  fun i => unnormWeights n scores w i /
    ∑ k ∈ Finset.range n, unnormWeights n scores w k

/-- The weight vector after `k` iterations of `page_rank`'s loop, starting
from `vec![1.; scores.len()]` (main.rs line 101). -/
def pageRankIter (n : ℕ) (scores : ℕ → ℕ → ℕ) : ℕ → ℕ → ℚ
  | 0 => fun _ => 1
  | k + 1 => pageRankStep n scores (pageRankIter n scores k)

/-- Rust `page_rank` (main.rs lines 100-117): exactly `REPS` iterations,
no early exit. -/
def page_rank (n : ℕ) (scores : ℕ → ℕ → ℕ) : ℕ → ℚ :=
  pageRankIter n scores REPS

/-- Modelled from the spec for the refinement claim C1, following its
words: "One iteration: for each strategy i, compute
`weight_i * Σ_j (score[i][j] * weight_j)^alpha`, across all j including i;
this produces an unnormalized next-weight vector; normalize by dividing
every entry by the vector's total sum", "Initial weights are uniform
(value 1 for every strategy)", "Repeat for a fixed large iteration count
(5000)". -/
def pageRankSpec (n : ℕ) (scores : ℕ → ℕ → ℕ) : ℕ → ℚ :=
  (fun w =>
      let unnorm : ℕ → ℚ :=
        fun i => w i * ∑ j ∈ Finset.range n, ((scores i j : ℚ) * w j) ^ (1 : ℕ)
      let total : ℚ := ∑ i ∈ Finset.range n, unnorm i
      fun i => unnorm i / total)^[5000]
    (fun _ => 1)

/-- Rust constant `PLAYS` (main.rs line 193). -/
def PLAYS : ℕ := 20

/-- The roster built in `main` (main.rs lines 195-216) has 13 players:
five `Constant`, four `TitForTat`, four `Threshold`. -/
def NUM_PLAYERS : ℕ := 13

/-- The accumulator `overall_ranks` after the first `t` iterations of the
`for _ in 0..PLAYS` loop of `main` (main.rs lines 217-224): starts as
`vec![0.; players.len()]` and adds trial `t`'s `page_rank` vector
elementwise. `trial t` is the weight vector produced by trial number `t`
(`page_rank(&play_all_pairs(&players))` with that trial's randomness). -/
def accumRanks (trial : ℕ → ℕ → ℚ) : ℕ → ℕ → ℚ
  | 0 => fun _ => 0
  | t + 1 => fun i => accumRanks trial t i + trial t i

/-- The weight vector of trial `t` of `main`, with trial `t`'s fresh
randomness given by the oracles `probs t` and `draws t`. -/
def mainTrial (strats : ℕ → Strategy) (probs : ℕ → ℕ → ℕ → ℚ)
    (draws : ℕ → ℕ → ℕ → ℕ → ℚ) (t : ℕ) : ℕ → ℚ :=
  page_rank NUM_PLAYERS (tournamentScores strats (probs t) (draws t) NUM_PLAYERS)

/-- The final `overall_ranks` accumulator of `main`: `PLAYS` trials summed
elementwise, never re-normalized. -/
def mainAccum (strats : ℕ → Strategy) (probs : ℕ → ℕ → ℕ → ℚ)
    (draws : ℕ → ℕ → ℕ → ℕ → ℚ) : ℕ → ℚ :=
  accumRanks (mainTrial strats probs draws) PLAYS

/-- The list `players_and_ranks` of main.rs line 225 (players represented
by their roster index), before sorting. -/
def mainPairs (strats : ℕ → Strategy) (probs : ℕ → ℕ → ℕ → ℚ)
    (draws : ℕ → ℕ → ℕ → ℕ → ℚ) : List (ℕ × ℚ) :=
  (List.range NUM_PLAYERS).map (fun i => (i, mainAccum strats probs draws i))

/-- The sort of main.rs line 226:
`sort_by(|a, b| b.1.partial_cmp(&a.1).unwrap())`, a stable sort into
descending order of rank (modelled with `List.mergeSort`, which is the
stable sort of the Lean library). -/
def mainSorted (strats : ℕ → Strategy) (probs : ℕ → ℕ → ℕ → ℚ)
    (draws : ℕ → ℕ → ℕ → ℕ → ℚ) : List (ℕ × ℚ) :=
  (mainPairs strats probs draws).mergeSort (fun a b => decide (b.2 ≤ a.2))

/-- Rendering of a rank by the format specifier `{:.6}` of main.rs
line 228: the value rounded to 6 decimal places. -/
def fmt6 (q : ℚ) : ℚ := (round (q * 1000000) : ℚ) / 1000000

/-- The printed output of `main` (main.rs lines 227-229), as the list of
(player index, rank formatted to 6 decimal places) in print order. -/
def mainOutput (strats : ℕ → Strategy) (probs : ℕ → ℕ → ℕ → ℚ)
    (draws : ℕ → ℕ → ℕ → ℕ → ℚ) : List (ℕ × ℚ) :=
  (mainSorted strats probs draws).map (fun p => (p.1, fmt6 p.2))

/-! ## Helper lemmas -/

/-- When the asserts of `Move::flip` pass, the call returns the flip body. -/
theorem flip_eq_some_flipDraw (m : Move) (prob draw : ℚ)
    (h0 : 0 ≤ prob) (h1 : prob ≤ 1/2) :
    Move.flip m prob draw = some (flipDraw m prob draw) := by
  unfold Move.flip
  rw [if_pos ⟨h0, h1⟩]

/-! ## Claims -/

/-- C4: `flip(move, prob)` fails (panics on an assert) iff `prob` lies
outside `[0, 0.5]`; in range it returns `opposite(move)` iff the uniform
draw is below `prob`, and for `prob = 0` it returns the input unchanged
for every possible draw (draws are taken from `[0, 1)`, so `0 ≤ draw`). -/
theorem flip_spec (m : Move) (prob draw : ℚ) :
    (Move.flip m prob draw = none ↔ ¬(0 ≤ prob ∧ prob ≤ 1/2)) ∧
    (0 ≤ prob → prob ≤ 1/2 →
      Move.flip m prob draw = some (if draw < prob then m.opposite else m)) ∧
    (0 ≤ draw → Move.flip m 0 draw = some m) := by
  refine ⟨?_, ?_, ?_⟩
  · constructor
    · intro hnone hp
      rw [flip_eq_some_flipDraw m prob draw hp.1 hp.2] at hnone
      exact Option.noConfusion hnone
    · intro hp
      unfold Move.flip
      rw [if_neg hp]
  · intro h0 h1
    rw [flip_eq_some_flipDraw m prob draw h0 h1]
    rfl
  · intro hd
    rw [flip_eq_some_flipDraw m 0 draw le_rfl (by norm_num)]
    unfold flipDraw
    rw [if_neg (by exact not_lt.mpr hd)]

/-- Witness for C4: concrete in-range calls of `flip`. -/
theorem flip_spec_witness :
    Move.flip Move.Cooperate (1/4) (1/2) = some Move.Cooperate ∧
    Move.flip Move.Cooperate 0 (1/3) = some Move.Cooperate := by
  constructor
  · have h := (flip_spec Move.Cooperate (1/4) (1/2)).2.1 (by norm_num) (by norm_num)
    rwa [if_neg (by norm_num)] at h
  · exact (flip_spec Move.Cooperate 0 (1/3)).2.2 (by norm_num)

/-- C6: `TitForTat(default, delay)` plays `default` while the opponent's
noisy history is shorter than `delay`; afterwards it inspects exactly the
most recent `delay` entries of the opponent's noisy history, playing
`opposite(default)` if all of them equal `default` and `default` if any
differs — for every own history `my` (which it ignores). -/
theorem titForTat_spec (default : Move) (delay : ℕ) (my their : List Move) :
    (their.length < delay → titForTatPlay default delay my their = default) ∧
    (delay ≤ their.length →
      (their.drop (their.length - delay)).length = delay ∧
      ((∀ m ∈ their.drop (their.length - delay), m = default) →
        titForTatPlay default delay my their = default.opposite) ∧
      ((∃ m ∈ their.drop (their.length - delay), m ≠ default) →
        titForTatPlay default delay my their = default)) := by
  unfold titForTatPlay
  refine ⟨fun h => by rw [if_pos h], fun h => ?_⟩
  rw [if_neg (by omega)]
  refine ⟨by rw [List.length_drop]; omega, fun hall => ?_, fun hex => ?_⟩
  · rw [if_neg ?_]
    simp only [List.any_eq_true, bne_iff_ne]
    push_neg
    exact hall
  · rw [if_pos ?_]
    simp only [List.any_eq_true, bne_iff_ne]
    exact hex

/-- Witness for C6: `TitForTat(Cooperate, 1)` after history
`[Defect, Cooperate]` sees only the last entry `Cooperate`, which equals
the default, so it plays `Defect`; after `[Cooperate, Defect]` it plays
`Cooperate`; and on the first turn (empty history, `delay = 1`) it plays
its default. -/
theorem titForTat_spec_witness :
    titForTatPlay Move.Cooperate 1 [] [Move.Defect, Move.Cooperate] = Move.Defect ∧
    titForTatPlay Move.Cooperate 1 [] [Move.Cooperate, Move.Defect] = Move.Cooperate ∧
    titForTatPlay Move.Cooperate 1 [] [] = Move.Cooperate := by
  refine ⟨?_, ?_, ?_⟩
  · exact ((titForTat_spec Move.Cooperate 1 [] [Move.Defect, Move.Cooperate]).2
      (by decide)).2.1 (by decide)
  · exact ((titForTat_spec Move.Cooperate 1 [] [Move.Cooperate, Move.Defect]).2
      (by decide)).2.2 ⟨Move.Defect, by decide, by decide⟩
  · exact (titForTat_spec Move.Cooperate 1 [] []).1 (by decide)

/-- C1: `page_rank` coincides with the spec's description of the Ranking
Algorithm — start from the all-ones vector, iterate exactly 5000 times the
map sending `w` to the normalization of
`i ↦ w i * Σ_j (score[i][j] * w j)^alpha` with `alpha = 1`, with no early
exit. -/
theorem page_rank_eq_spec (n : ℕ) (scores : ℕ → ℕ → ℕ) :
    page_rank n scores = pageRankSpec n scores := by
  have h : ∀ k, pageRankIter n scores k =
      (fun w =>
        let unnorm : ℕ → ℚ :=
          fun i => w i * ∑ j ∈ Finset.range n, ((scores i j : ℚ) * w j) ^ (1 : ℕ)
        let total : ℚ := ∑ i ∈ Finset.range n, unnorm i
        fun i => unnorm i / total)^[k] (fun _ => 1) := by
    intro k
    induction k with
    | zero => rfl
    | succ k ih =>
      rw [Function.iterate_succ_apply', ← ih]
      rfl
  exact h 5000

/-- C5: after any completed iteration of `page_rank` whose unnormalized
vector has nonzero total sum, the weight vector sums to exactly 1. -/
theorem pageRank_sums_to_one (n : ℕ) (scores : ℕ → ℕ → ℕ) (k : ℕ)
    (h : ∑ i ∈ Finset.range n,
      unnormWeights n scores (pageRankIter n scores k) i ≠ 0) :
    ∑ i ∈ Finset.range n, pageRankIter n scores (k + 1) i = 1 := by
  show ∑ i ∈ Finset.range n, pageRankStep n scores (pageRankIter n scores k) i = 1
  unfold pageRankStep
  rw [← Finset.sum_div]
  exact div_self h

/-- Witness for C5: the 1×1 score matrix `[[1]]` has unnormalized sum 1
after iteration 0, and the weight vector after iteration 1 sums to 1. -/
theorem pageRank_sums_to_one_witness :
    ∑ i ∈ Finset.range 1, pageRankIter 1 (fun _ _ => 1) 1 i = 1 := by
  exact pageRank_sums_to_one 1 (fun _ _ => 1) 0
    (by norm_num [unnormWeights, pageRankIter, ALPHA])

section RoundLemmas

variable (p1 p2 : Strategy) (prob : ℚ) (draws : ℕ → ℚ)

/-- Unfolding one turn of `play_round`: player 1's clean history gains the
move decided from (own clean history, opponent's noisy history). -/
theorem roundLoop_succ_moves1 (n : ℕ) :
    (roundLoop p1 p2 prob draws (n + 1)).moves1 =
      (roundLoop p1 p2 prob draws n).moves1 ++
        [p1 (roundLoop p1 p2 prob draws n).moves1
            (roundLoop p1 p2 prob draws n).noisy2] := rfl

/-- Unfolding one turn of `play_round`: player 2's clean history. -/
theorem roundLoop_succ_moves2 (n : ℕ) :
    (roundLoop p1 p2 prob draws (n + 1)).moves2 =
      (roundLoop p1 p2 prob draws n).moves2 ++
        [p2 (roundLoop p1 p2 prob draws n).moves2
            (roundLoop p1 p2 prob draws n).noisy1] := rfl

/-- Unfolding one turn of `play_round`: player 1's noisy history gains the
flip of the decided move, consuming draw `2*n`. -/
theorem roundLoop_succ_noisy1 (n : ℕ) :
    (roundLoop p1 p2 prob draws (n + 1)).noisy1 =
      (roundLoop p1 p2 prob draws n).noisy1 ++
        [flipDraw (p1 (roundLoop p1 p2 prob draws n).moves1
            (roundLoop p1 p2 prob draws n).noisy2) prob (draws (2 * n))] := rfl

/-- Unfolding one turn of `play_round`: player 2's noisy history gains the
flip of the decided move, consuming draw `2*n + 1`. -/
theorem roundLoop_succ_noisy2 (n : ℕ) :
    (roundLoop p1 p2 prob draws (n + 1)).noisy2 =
      (roundLoop p1 p2 prob draws n).noisy2 ++
        [flipDraw (p2 (roundLoop p1 p2 prob draws n).moves2
            (roundLoop p1 p2 prob draws n).noisy1) prob (draws (2 * n + 1))] := rfl

/-- Unfolding one turn of `play_round`: player 1's score grows by the first
component of `single_score` applied to the two noisy (post-flip) moves. -/
theorem roundLoop_succ_score1 (n : ℕ) :
    (roundLoop p1 p2 prob draws (n + 1)).score1 =
      (roundLoop p1 p2 prob draws n).score1 +
        (single_score
          (flipDraw (p1 (roundLoop p1 p2 prob draws n).moves1
            (roundLoop p1 p2 prob draws n).noisy2) prob (draws (2 * n)))
          (flipDraw (p2 (roundLoop p1 p2 prob draws n).moves2
            (roundLoop p1 p2 prob draws n).noisy1) prob (draws (2 * n + 1)))).1 := rfl

/-- Unfolding one turn of `play_round`: player 2's score. -/
theorem roundLoop_succ_score2 (n : ℕ) :
    (roundLoop p1 p2 prob draws (n + 1)).score2 =
      (roundLoop p1 p2 prob draws n).score2 +
        (single_score
          (flipDraw (p1 (roundLoop p1 p2 prob draws n).moves1
            (roundLoop p1 p2 prob draws n).noisy2) prob (draws (2 * n)))
          (flipDraw (p2 (roundLoop p1 p2 prob draws n).moves2
            (roundLoop p1 p2 prob draws n).noisy1) prob (draws (2 * n + 1)))).2 := rfl

/-- After `n` turns each of the four histories has exactly `n` entries. -/
theorem roundLoop_lengths (n : ℕ) :
    (roundLoop p1 p2 prob draws n).moves1.length = n ∧
    (roundLoop p1 p2 prob draws n).noisy1.length = n ∧
    (roundLoop p1 p2 prob draws n).moves2.length = n ∧
    (roundLoop p1 p2 prob draws n).noisy2.length = n := by
  induction n with
  | zero => exact ⟨rfl, rfl, rfl, rfl⟩
  | succ n ih =>
    obtain ⟨h1, h2, h3, h4⟩ := ih
    rw [roundLoop_succ_moves1, roundLoop_succ_noisy1, roundLoop_succ_moves2,
      roundLoop_succ_noisy2]
    simp [h1, h2, h3, h4]

/-- The state after `n` turns extends the state after `t ≤ n` turns:
taking the first `t` entries of any history recovers the earlier state. -/
theorem roundLoop_take (n : ℕ) : ∀ t, t ≤ n →
    (roundLoop p1 p2 prob draws n).moves1.take t =
      (roundLoop p1 p2 prob draws t).moves1 ∧
    (roundLoop p1 p2 prob draws n).noisy1.take t =
      (roundLoop p1 p2 prob draws t).noisy1 ∧
    (roundLoop p1 p2 prob draws n).moves2.take t =
      (roundLoop p1 p2 prob draws t).moves2 ∧
    (roundLoop p1 p2 prob draws n).noisy2.take t =
      (roundLoop p1 p2 prob draws t).noisy2 := by
  induction n with
  | zero =>
    intro t ht
    have h0 : t = 0 := by omega
    subst h0
    exact ⟨rfl, rfl, rfl, rfl⟩
  | succ n ih =>
    intro t ht
    by_cases htn : t ≤ n
    · obtain ⟨i1, i2, i3, i4⟩ := ih t htn
      obtain ⟨l1, l2, l3, l4⟩ := roundLoop_lengths p1 p2 prob draws n
      rw [roundLoop_succ_moves1, roundLoop_succ_noisy1, roundLoop_succ_moves2,
        roundLoop_succ_noisy2]
      rw [List.take_append_of_le_length (by omega),
        List.take_append_of_le_length (by omega),
        List.take_append_of_le_length (by omega),
        List.take_append_of_le_length (by omega)]
      exact ⟨i1, i2, i3, i4⟩
    · have heq : t = n + 1 := by omega
      subst heq
      obtain ⟨l1, l2, l3, l4⟩ := roundLoop_lengths p1 p2 prob draws (n + 1)
      rw [List.take_of_length_le (by omega), List.take_of_length_le (by omega),
        List.take_of_length_le (by omega), List.take_of_length_le (by omega)]
      exact ⟨rfl, rfl, rfl, rfl⟩

/-- Reading a just-appended element at a known length. -/
theorem getElem_append_singleton {α : Type} (l : List α) (a : α) (n : ℕ)
    (h : l.length = n) : (l ++ [a])[n]? = some a := by
  subst h
  exact List.getElem?_concat_length l a

/-- Entry `t` of each history in the state after `n > t` turns: the clean
entries are exactly the moves the strategies decided from (own clean
prefix, opponent's noisy prefix), and the noisy entries are their flips
with draws `2*t` and `2*t + 1`. -/
theorem roundLoop_getElem (n : ℕ) : ∀ t, t < n →
    (roundLoop p1 p2 prob draws n).moves1[t]? =
      some (p1 (roundLoop p1 p2 prob draws t).moves1
        (roundLoop p1 p2 prob draws t).noisy2) ∧
    (roundLoop p1 p2 prob draws n).moves2[t]? =
      some (p2 (roundLoop p1 p2 prob draws t).moves2
        (roundLoop p1 p2 prob draws t).noisy1) ∧
    (roundLoop p1 p2 prob draws n).noisy1[t]? =
      some (flipDraw (p1 (roundLoop p1 p2 prob draws t).moves1
        (roundLoop p1 p2 prob draws t).noisy2) prob (draws (2 * t))) ∧
    (roundLoop p1 p2 prob draws n).noisy2[t]? =
      some (flipDraw (p2 (roundLoop p1 p2 prob draws t).moves2
        (roundLoop p1 p2 prob draws t).noisy1) prob (draws (2 * t + 1))) := by
  induction n with
  | zero => intro t ht; omega
  | succ n ih =>
    intro t ht
    obtain ⟨l1, l2, l3, l4⟩ := roundLoop_lengths p1 p2 prob draws n
    by_cases htn : t < n
    · obtain ⟨i1, i2, i3, i4⟩ := ih t htn
      rw [roundLoop_succ_moves1, roundLoop_succ_noisy1, roundLoop_succ_moves2,
        roundLoop_succ_noisy2]
      rw [List.getElem?_append_left (by omega), List.getElem?_append_left (by omega),
        List.getElem?_append_left (by omega), List.getElem?_append_left (by omega)]
      exact ⟨i1, i2, i3, i4⟩
    · have heq : t = n := by omega
      subst heq
      rw [roundLoop_succ_moves1, roundLoop_succ_noisy1, roundLoop_succ_moves2,
        roundLoop_succ_noisy2]
      rw [getElem_append_singleton _ _ _ l1, getElem_append_singleton _ _ _ l3,
        getElem_append_singleton _ _ _ l2, getElem_append_singleton _ _ _ l4]
      exact ⟨rfl, rfl, rfl, rfl⟩

/-- The scores after `n` turns are the turn-by-turn sums of `single_score`
applied to the stored noisy (post-flip) entries of both players. -/
theorem roundLoop_score (n : ℕ) :
    (roundLoop p1 p2 prob draws n).score1 =
      ∑ t ∈ Finset.range n,
        (single_score ((roundLoop p1 p2 prob draws n).noisy1.getD t Move.Cooperate)
          ((roundLoop p1 p2 prob draws n).noisy2.getD t Move.Cooperate)).1 ∧
    (roundLoop p1 p2 prob draws n).score2 =
      ∑ t ∈ Finset.range n,
        (single_score ((roundLoop p1 p2 prob draws n).noisy1.getD t Move.Cooperate)
          ((roundLoop p1 p2 prob draws n).noisy2.getD t Move.Cooperate)).2 := by
  induction n with
  | zero => exact ⟨rfl, rfl⟩
  | succ n ih =>
    obtain ⟨i1, i2⟩ := ih
    have hstable : ∀ t, t < n →
        (single_score ((roundLoop p1 p2 prob draws (n + 1)).noisy1.getD t Move.Cooperate)
          ((roundLoop p1 p2 prob draws (n + 1)).noisy2.getD t Move.Cooperate)) =
        (single_score ((roundLoop p1 p2 prob draws n).noisy1.getD t Move.Cooperate)
          ((roundLoop p1 p2 prob draws n).noisy2.getD t Move.Cooperate)) := by
      intro t htn
      obtain ⟨_, _, g3, g4⟩ := roundLoop_getElem p1 p2 prob draws n t htn
      obtain ⟨_, _, g3s, g4s⟩ := roundLoop_getElem p1 p2 prob draws (n + 1) t (by omega)
      rw [List.getD_eq_getElem?_getD, List.getD_eq_getElem?_getD, g3s, g4s,
        List.getD_eq_getElem?_getD, List.getD_eq_getElem?_getD, g3, g4]
    have hlast :
        (single_score ((roundLoop p1 p2 prob draws (n + 1)).noisy1.getD n Move.Cooperate)
          ((roundLoop p1 p2 prob draws (n + 1)).noisy2.getD n Move.Cooperate)) =
        (single_score
          (flipDraw (p1 (roundLoop p1 p2 prob draws n).moves1
            (roundLoop p1 p2 prob draws n).noisy2) prob (draws (2 * n)))
          (flipDraw (p2 (roundLoop p1 p2 prob draws n).moves2
            (roundLoop p1 p2 prob draws n).noisy1) prob (draws (2 * n + 1)))) := by
      obtain ⟨_, _, g3, g4⟩ := roundLoop_getElem p1 p2 prob draws (n + 1) n (by omega)
      rw [List.getD_eq_getElem?_getD, List.getD_eq_getElem?_getD, g3, g4,
        Option.getD_some, Option.getD_some]
    constructor
    · rw [roundLoop_succ_score1, Finset.sum_range_succ, hlast, i1]
      congr 1
      exact Finset.sum_congr rfl fun t htmem =>
        congrArg Prod.fst (hstable t (Finset.mem_range.mp htmem)).symm
    · rw [roundLoop_succ_score2, Finset.sum_range_succ, hlast, i2]
      congr 1
      exact Finset.sum_congr rfl fun t htmem =>
        congrArg Prod.snd (hstable t (Finset.mem_range.mp htmem)).symm

end RoundLemmas

/-- The structure claimed for turn `t` of a round between `p1` and `p2`
under noise level `prob` with flip-draw oracle `draws`: every history has
exactly one entry per completed turn; the clean entry of turn `t` is
exactly the move the strategy decided from its own clean prefix and the
opponent's noisy prefix (so a player's clean history never contains its
own noisy-corrupted move); the noisy entry of turn `t` is the independent
flip of the clean entry; and both total scores are the turn sums of
`single_score` applied to the two noisy (post-flip) entries. -/
def roundTurnSpec (p1 p2 : Strategy) (prob : ℚ) (draws : ℕ → ℚ) (t : ℕ) : Prop :=
  (∀ u : ℕ,
    (roundLoop p1 p2 prob draws u).moves1.length = u ∧
    (roundLoop p1 p2 prob draws u).noisy1.length = u ∧
    (roundLoop p1 p2 prob draws u).moves2.length = u ∧
    (roundLoop p1 p2 prob draws u).noisy2.length = u) ∧
  (roundLoop p1 p2 prob draws ROUND_LENGTH).moves1.getD t Move.Cooperate =
    p1 ((roundLoop p1 p2 prob draws ROUND_LENGTH).moves1.take t)
      ((roundLoop p1 p2 prob draws ROUND_LENGTH).noisy2.take t) ∧
  (roundLoop p1 p2 prob draws ROUND_LENGTH).moves2.getD t Move.Cooperate =
    p2 ((roundLoop p1 p2 prob draws ROUND_LENGTH).moves2.take t)
      ((roundLoop p1 p2 prob draws ROUND_LENGTH).noisy1.take t) ∧
  (roundLoop p1 p2 prob draws ROUND_LENGTH).noisy1.getD t Move.Cooperate =
    flipDraw ((roundLoop p1 p2 prob draws ROUND_LENGTH).moves1.getD t Move.Cooperate)
      prob (draws (2 * t)) ∧
  (roundLoop p1 p2 prob draws ROUND_LENGTH).noisy2.getD t Move.Cooperate =
    flipDraw ((roundLoop p1 p2 prob draws ROUND_LENGTH).moves2.getD t Move.Cooperate)
      prob (draws (2 * t + 1)) ∧
  (play_round p1 p2 prob draws).1 =
    ∑ r ∈ Finset.range ROUND_LENGTH,
      (single_score ((roundLoop p1 p2 prob draws ROUND_LENGTH).noisy1.getD r Move.Cooperate)
        ((roundLoop p1 p2 prob draws ROUND_LENGTH).noisy2.getD r Move.Cooperate)).1 ∧
  (play_round p1 p2 prob draws).2 =
    ∑ r ∈ Finset.range ROUND_LENGTH,
      (single_score ((roundLoop p1 p2 prob draws ROUND_LENGTH).noisy1.getD r Move.Cooperate)
        ((roundLoop p1 p2 prob draws ROUND_LENGTH).noisy2.getD r Move.Cooperate)).2

/-- C3: in every turn `t` of a round, each strategy's decision is computed
from its own clean history and the opponent's noisy history; each decided
move is flipped with the round's shared noise level (independent draws
`2t` and `2t+1`); the payoff is computed from the two noisy post-flip
moves; each of the four histories grows by exactly one entry per turn; and
a player's clean history holds exactly its decided (never noisy-corrupted)
moves. -/
theorem play_round_turns (p1 p2 : Strategy) (prob : ℚ) (draws : ℕ → ℚ) (t : ℕ)
    (ht : t < ROUND_LENGTH) : roundTurnSpec p1 p2 prob draws t :=
  by
  obtain ⟨g1, g2, g3, g4⟩ := roundLoop_getElem p1 p2 prob draws ROUND_LENGTH t ht
  obtain ⟨k1, k2, k3, k4⟩ := roundLoop_take p1 p2 prob draws ROUND_LENGTH t (le_of_lt ht)
  obtain ⟨s1, s2⟩ := roundLoop_score p1 p2 prob draws ROUND_LENGTH
  refine ⟨roundLoop_lengths p1 p2 prob draws, ?_, ?_, ?_, ?_, s1, s2⟩
  · rw [List.getD_eq_getElem?_getD, g1, Option.getD_some, k1, k4]
  · rw [List.getD_eq_getElem?_getD, g2, Option.getD_some, k2, k3]
  · rw [List.getD_eq_getElem?_getD, g3, Option.getD_some,
      List.getD_eq_getElem?_getD, g1, Option.getD_some]
  · rw [List.getD_eq_getElem?_getD, g4, Option.getD_some,
      List.getD_eq_getElem?_getD, g2, Option.getD_some]

/-- Witness for C3: the turn structure at turn 0 of a round between an
always-cooperate and an always-defect strategy with noise level 0. -/
theorem play_round_turns_witness :
    roundTurnSpec (fun _ _ => Move.Cooperate) (fun _ _ => Move.Defect) 0
      (fun _ => 1/2) 0 :=
  play_round_turns (fun _ _ => Move.Cooperate) (fun _ _ => Move.Defect) 0
    (fun _ => 1/2) 0 (by decide)

section PairsLemmas

variable (run : ℕ → ℕ → ℕ → ℕ × ℕ)

/-- Each iteration of the inner loop of `play_all_pairs` performs exactly
one match run. -/
theorem innerPairs_runs (i : ℕ) : ∀ (jc : ℕ) (s : PairsState),
    (innerPairs run i jc s).runs = s.runs + jc := by
  intro jc
  induction jc with
  | zero => intro s; rfl
  | succ jc ih =>
    intro s
    show (innerPairs run i jc s).runs + 1 = s.runs + (jc + 1)
    rw [ih s]
    omega

/-- Matrix contents after the first `jc` iterations of the inner loop of
row `i`: cell `(i, j)` with `j < jc` holds the first component of the run
for pair `(i, j)`, cell `(j, i)` the second, the diagonal `(i, i)` (written
twice by its own iteration) holds the second component, and all other
cells are untouched. -/
theorem innerPairs_scores (i : ℕ) : ∀ (jc : ℕ) (s : PairsState) (x y : ℕ),
    (innerPairs run i jc s).scores x y =
      if x = i ∧ y = i ∧ i < jc then (run i i (s.runs + i)).2
      else if x = i ∧ y < jc then (run i y (s.runs + y)).1
      else if y = i ∧ x < jc then (run i x (s.runs + x)).2
      else s.scores x y := by
  intro jc
  induction jc with
  | zero => intro s x y; simp [innerPairs]
  | succ jc ih =>
    intro s x y
    have hstep : (innerPairs run i (jc + 1) s).scores x y =
        (if x = jc ∧ y = i then (run i jc (innerPairs run i jc s).runs).2
         else if x = i ∧ y = jc then (run i jc (innerPairs run i jc s).runs).1
         else (innerPairs run i jc s).scores x y) := rfl
    rw [hstep, innerPairs_runs, ih]
    by_cases hA : x = jc ∧ y = i
    · rw [if_pos hA]
      obtain ⟨hx, hy⟩ := hA
      by_cases hji : jc = i
      · simp only [hx, hy, hji]
        rw [if_pos (by simp)]
      · simp only [hx, hy]
        rw [if_neg (by intro h; exact hji h.1), if_neg (by intro h; exact hji h.1),
          if_pos (by simp)]
    · by_cases hB : x = i ∧ y = jc
      · have hji : jc ≠ i := fun h => hA ⟨hB.1.trans h.symm, hB.2.trans h⟩
        rw [if_neg hA, if_pos hB]
        simp only [hB.1, hB.2]
        rw [if_neg (by intro h; exact hji h.2.1), if_pos (by simp)]
      · rw [if_neg hA, if_neg hB]
        split_ifs <;> first | rfl | (exfalso; omega)

/-- After the outer loop has processed `n` rows, exactly
`triangle n = 1 + 2 + ⋯ + n` match runs have been performed. -/
theorem outerPairs_runs (n : ℕ) : (outerPairs run n).runs = triangle n := by
  induction n with
  | zero => rfl
  | succ n ih =>
    show (innerPairs run n (n + 1) (outerPairs run n)).runs = triangle (n + 1)
    rw [innerPairs_runs, ih]
    rfl

/-- Doubling removes the division in the triangular-number formula. -/
theorem triangle_two (n : ℕ) : 2 * triangle n = n * (n + 1) := by
  induction n with
  | zero => rfl
  | succ n ih =>
    show 2 * (triangle n + (n + 1)) = (n + 1) * (n + 2)
    rw [Nat.mul_add, ih]
    ring

/-- `triangle n` is the `n`-th triangular number `n (n+1) / 2`. -/
theorem triangle_eq (n : ℕ) : triangle n = n * (n + 1) / 2 := by
  have h : n * (n + 1) / 2 = 2 * triangle n / 2 := by rw [triangle_two]
  rw [h, Nat.mul_div_cancel_left _ two_pos]

/-- Closed form of the full score matrix built by `play_all_pairs`: cell
`(x, y)` below the diagonal holds the first component of the single run
for pair `(x, y)`; above the diagonal, the second component of the single
run for pair `(y, x)`; the diagonal holds the second component of its own
run; out-of-roster cells stay 0. -/
theorem outerPairs_scores (n : ℕ) (x y : ℕ) :
    (outerPairs run n).scores x y =
      if x < n ∧ y < n then
        (if y < x then (run x y (pairIdx x y)).1
         else if x < y then (run y x (pairIdx y x)).2
         else (run x x (pairIdx x x)).2)
      else 0 := by
  induction n with
  | zero => simp [outerPairs]
  | succ n ih =>
    show (innerPairs run n (n + 1) (outerPairs run n)).scores x y = _
    rw [innerPairs_scores, outerPairs_runs, ih]
    by_cases hx : x = n
    · subst hx
      by_cases hy : y = x
      · subst hy
        split_ifs <;> first | rfl | (exfalso; omega)
      · split_ifs <;> first | rfl | (exfalso; omega)
    · by_cases hy : y = n
      · subst hy
        split_ifs <;> first | rfl | (exfalso; omega)
      · split_ifs <;> first | rfl | (exfalso; omega)

end PairsLemmas

/-- C2: for a roster of `n` strategies, `play_all_pairs` performs exactly
`n(n+1)/2` match runs (one per unordered pair, self-pairs included), and
for `j < i` the cells `scores[i][j]` and `scores[j][i]` are the two
components of one and the same match run (run number `pairIdx i j`) —
mirrored cells are never computed by independent runs. -/
theorem play_all_pairs_runs_mirror (run : ℕ → ℕ → ℕ → ℕ × ℕ) (n : ℕ) :
    (play_all_pairs run n).runs = n * (n + 1) / 2 ∧
    ∀ i j, j < i → i < n →
      (play_all_pairs run n).scores i j = (run i j (pairIdx i j)).1 ∧
      (play_all_pairs run n).scores j i = (run i j (pairIdx i j)).2 := by
  constructor
  · show (outerPairs run n).runs = n * (n + 1) / 2
    rw [outerPairs_runs, triangle_eq]
  · intro i j hji hin
    constructor
    · show (outerPairs run n).scores i j = (run i j (pairIdx i j)).1
      rw [outerPairs_scores, if_pos ⟨hin, by omega⟩, if_pos hji]
    · show (outerPairs run n).scores j i = (run i j (pairIdx i j)).2
      rw [outerPairs_scores, if_pos ⟨by omega, hin⟩, if_neg (by omega), if_pos hji]

/-- Witness for C2: a 2-strategy roster performs 3 match runs, and the
mirrored cells `(1,0)` and `(0,1)` hold the two components of run number
`pairIdx 1 0 = 1`. -/
theorem play_all_pairs_runs_mirror_witness :
    (play_all_pairs (fun i j k => (10 * i + j, 100 + k)) 2).runs = 2 * (2 + 1) / 2 ∧
    (play_all_pairs (fun i j k => (10 * i + j, 100 + k)) 2).scores 1 0 =
      ((fun i j k => (10 * i + j, 100 + k)) 1 0 (pairIdx 1 0) : ℕ × ℕ).1 ∧
    (play_all_pairs (fun i j k => (10 * i + j, 100 + k)) 2).scores 0 1 =
      ((fun i j k => (10 * i + j, 100 + k)) 1 0 (pairIdx 1 0) : ℕ × ℕ).2 :=
  ⟨(play_all_pairs_runs_mirror (fun i j k => (10 * i + j, 100 + k)) 2).1,
   ((play_all_pairs_runs_mirror (fun i j k => (10 * i + j, 100 + k)) 2).2 1 0
      (by decide) (by decide)).1,
   ((play_all_pairs_runs_mirror (fun i j k => (10 * i + j, 100 + k)) 2).2 1 0
      (by decide) (by decide)).2⟩

/-- C9: the diagonal cell `scores[i][i]` is written twice from the single
self-play run of pair `(i, i)` — first the first seat's score, then the
second seat's — so its final value is exactly the second seat's total of
that run (the first seat's total is discarded). -/
theorem play_all_pairs_diagonal (run : ℕ → ℕ → ℕ → ℕ × ℕ) (n i : ℕ)
    (hi : i < n) :
    (play_all_pairs run n).scores i i = (run i i (pairIdx i i)).2 := by
  show (outerPairs run n).scores i i = _
  rw [outerPairs_scores, if_pos ⟨hi, hi⟩, if_neg (lt_irrefl i), if_neg (lt_irrefl i)]

/-- Witness for C9: a self-play run returning 7 for the first seat and 11
for the second leaves 11 (not 7, their sum, or their average) on the
diagonal. -/
theorem play_all_pairs_diagonal_witness :
    (play_all_pairs (fun _ _ _ => (7, 11)) 1).scores 0 0 = 11 :=
  play_all_pairs_diagonal (fun _ _ _ => (7, 11)) 1 0 (by decide)

/-- Payoff bounds of one encounter: each side gets at most 3, and the two
payoffs together are between 2 and 4. -/
theorem single_score_bounds (m1 m2 : Move) :
    (single_score m1 m2).1 ≤ 3 ∧ (single_score m1 m2).2 ≤ 3 ∧
    2 ≤ (single_score m1 m2).1 + (single_score m1 m2).2 ∧
    (single_score m1 m2).1 + (single_score m1 m2).2 ≤ 4 := by
  cases m1 <;> cases m2 <;> exact (by decide)

/-- Running score bounds after `n` turns of a round. -/
theorem roundLoop_score_bounds (p1 p2 : Strategy) (prob : ℚ) (draws : ℕ → ℚ)
    (n : ℕ) :
    (roundLoop p1 p2 prob draws n).score1 ≤ 3 * n ∧
    (roundLoop p1 p2 prob draws n).score2 ≤ 3 * n ∧
    2 * n ≤ (roundLoop p1 p2 prob draws n).score1 +
      (roundLoop p1 p2 prob draws n).score2 ∧
    (roundLoop p1 p2 prob draws n).score1 +
      (roundLoop p1 p2 prob draws n).score2 ≤ 4 * n := by
  induction n with
  | zero => exact ⟨Nat.le_refl 0, Nat.le_refl 0, Nat.le_refl 0, Nat.le_refl 0⟩
  | succ n ih =>
    obtain ⟨i1, i2, i3, i4⟩ := ih
    obtain ⟨b1, b2, b3, b4⟩ := single_score_bounds
      (flipDraw (p1 (roundLoop p1 p2 prob draws n).moves1
        (roundLoop p1 p2 prob draws n).noisy2) prob (draws (2 * n)))
      (flipDraw (p2 (roundLoop p1 p2 prob draws n).moves2
        (roundLoop p1 p2 prob draws n).noisy1) prob (draws (2 * n + 1)))
    rw [roundLoop_succ_score1, roundLoop_succ_score2]
    refine ⟨by omega, by omega, by omega, by omega⟩

/-- Score bounds of a full 100-turn round. -/
theorem play_round_le (p1 p2 : Strategy) (prob : ℚ) (draws : ℕ → ℚ) :
    (play_round p1 p2 prob draws).1 ≤ 300 ∧
    (play_round p1 p2 prob draws).2 ≤ 300 ∧
    200 ≤ (play_round p1 p2 prob draws).1 + (play_round p1 p2 prob draws).2 ∧
    (play_round p1 p2 prob draws).1 + (play_round p1 p2 prob draws).2 ≤ 400 := by
  obtain ⟨b1, b2, b3, b4⟩ := roundLoop_score_bounds p1 p2 prob draws ROUND_LENGTH
  have e1 : (play_round p1 p2 prob draws).1 =
      (roundLoop p1 p2 prob draws ROUND_LENGTH).score1 := rfl
  have e2 : (play_round p1 p2 prob draws).2 =
      (roundLoop p1 p2 prob draws ROUND_LENGTH).score2 := rfl
  have h3 : 3 * ROUND_LENGTH = 300 := rfl
  have h2 : 2 * ROUND_LENGTH = 200 := rfl
  have h4 : 4 * ROUND_LENGTH = 400 := rfl
  rw [e1, e2]
  rw [h3] at b1 b2
  rw [h2] at b3
  rw [h4] at b4
  exact ⟨b1, b2, b3, b4⟩

/-- Each component of a `play_pair` match total is at most
`NUM_ROUNDS * 300 = 30000`. -/
theorem play_pair_le (p1 p2 : Strategy) (probs : ℕ → ℚ) (draws : ℕ → ℕ → ℚ) :
    (play_pair p1 p2 probs draws).1 ≤ 30000 ∧
    (play_pair p1 p2 probs draws).2 ≤ 30000 := by
  have e1 : (play_pair p1 p2 probs draws).1 =
      ∑ r ∈ Finset.range NUM_ROUNDS, (play_round p1 p2 (probs r) (draws r)).1 := rfl
  have e2 : (play_pair p1 p2 probs draws).2 =
      ∑ r ∈ Finset.range NUM_ROUNDS, (play_round p1 p2 (probs r) (draws r)).2 := rfl
  constructor
  · rw [e1]
    calc ∑ r ∈ Finset.range NUM_ROUNDS, (play_round p1 p2 (probs r) (draws r)).1
        ≤ ∑ _r ∈ Finset.range NUM_ROUNDS, 300 :=
          Finset.sum_le_sum (fun r _ =>
            (play_round_le p1 p2 (probs r) (draws r)).1)
      _ = 30000 := by simp [NUM_ROUNDS]
  · rw [e2]
    calc ∑ r ∈ Finset.range NUM_ROUNDS, (play_round p1 p2 (probs r) (draws r)).2
        ≤ ∑ _r ∈ Finset.range NUM_ROUNDS, 300 :=
          Finset.sum_le_sum (fun r _ =>
            (play_round_le p1 p2 (probs r) (draws r)).2.1)
      _ = 30000 := by simp [NUM_ROUNDS]

/-- C10: every round's score pair `(s1, s2)` satisfies `s1 ≤ 300`,
`s2 ≤ 300` and `200 ≤ s1 + s2 ≤ 400` (each of the 100 turns gives either
player at most 3 and the two per-turn payoffs sum to 2, 3 or 4), and
consequently every cell of the tournament score matrix is at most
`100 rounds × 300 = 30000`. -/
theorem score_matrix_bounds :
    (∀ m1 m2 : Move,
      (single_score m1 m2).1 ≤ 3 ∧ (single_score m1 m2).2 ≤ 3 ∧
      ((single_score m1 m2).1 + (single_score m1 m2).2 = 2 ∨
       (single_score m1 m2).1 + (single_score m1 m2).2 = 3 ∨
       (single_score m1 m2).1 + (single_score m1 m2).2 = 4)) ∧
    (∀ (p1 p2 : Strategy) (prob : ℚ) (draws : ℕ → ℚ),
      (play_round p1 p2 prob draws).1 ≤ 300 ∧
      (play_round p1 p2 prob draws).2 ≤ 300 ∧
      200 ≤ (play_round p1 p2 prob draws).1 + (play_round p1 p2 prob draws).2 ∧
      (play_round p1 p2 prob draws).1 + (play_round p1 p2 prob draws).2 ≤ 400) ∧
    (∀ (p1 p2 : Strategy) (probs : ℕ → ℚ) (draws : ℕ → ℕ → ℚ),
      (play_pair p1 p2 probs draws).1 ≤ 30000 ∧
      (play_pair p1 p2 probs draws).2 ≤ 30000) ∧
    (∀ (strats : ℕ → Strategy) (probs : ℕ → ℕ → ℚ) (draws : ℕ → ℕ → ℕ → ℚ)
      (n x y : ℕ), tournamentScores strats probs draws n x y ≤ 30000) := by
  refine ⟨?_, ?_, play_pair_le, ?_⟩
  · intro m1 m2
    cases m1 <;> cases m2 <;> exact (by decide)
  · intro p1 p2 prob draws
    exact play_round_le p1 p2 prob draws
  · intro strats probs draws n x y
    show (outerPairs (fun i j k =>
      play_pair (strats i) (strats j) (probs k) (draws k)) n).scores x y ≤ 30000
    rw [outerPairs_scores]
    split_ifs
    · exact (play_pair_le _ _ _ _).1
    · exact (play_pair_le _ _ _ _).2
    · exact (play_pair_le _ _ _ _).2
    · exact Nat.zero_le _

/-- A strategy whose row of the score matrix is all zeros has unnormalized
next-weight 0, whatever the current weights are. -/
theorem unnormWeights_zero_row (n : ℕ) (scores : ℕ → ℕ → ℕ) (i : ℕ)
    (hrow : ∀ j, j < n → scores i j = 0) (w : ℕ → ℚ) :
    unnormWeights n scores w i = 0 := by
  unfold unnormWeights
  have hz : ∀ j ∈ Finset.range n, ((scores i j : ℚ) * w j) ^ ALPHA = 0 := by
    intro j hj
    rw [hrow j (Finset.mem_range.mp hj)]
    simp [ALPHA]
  rw [Finset.sum_eq_zero hz, mul_zero]

/-- C7: if strategy `i` scores 0 against every opponent (its whole matrix
row is zero) and every iteration's normalizing sum is nonzero, then with
`alpha = 1` its weight is exactly 0 after every completed iteration
(starting from weight 1, so the sequence is monotonically non-increasing
and reaches 0 at the first iteration, never to become positive again). -/
theorem zero_row_collapse (n : ℕ) (scores : ℕ → ℕ → ℕ) (i : ℕ)
    (hrow : ∀ j, j < n → scores i j = 0)
    (hsums : ∀ k, ∑ m ∈ Finset.range n,
      unnormWeights n scores (pageRankIter n scores k) m ≠ 0) :
    (∀ k, 1 ≤ k → pageRankIter n scores k i = 0) ∧
    (∀ k, pageRankIter n scores (k + 1) i ≤ pageRankIter n scores k i) := by
  have hz : ∀ w : ℕ → ℚ, pageRankStep n scores w i = 0 := by
    intro w
    unfold pageRankStep
    rw [unnormWeights_zero_row n scores i hrow w, zero_div]
  have hone : ∀ k, 1 ≤ k → pageRankIter n scores k i = 0 := by
    intro k hk
    obtain ⟨m, rfl⟩ : ∃ m, k = m + 1 := ⟨k - 1, by omega⟩
    exact hz (pageRankIter n scores m)
  refine ⟨hone, fun k => ?_⟩
  cases k with
  | zero =>
    rw [hone 1 le_rfl]
    show (0 : ℚ) ≤ 1
    norm_num
  | succ m =>
    rw [hone (m + 2) (by omega), hone (m + 1) (by omega)]

/-- Concrete matrix for the C7 witness: strategy 0 scores 0 against
everyone; every other strategy scores 1 everywhere. -/
def zrScores : ℕ → ℕ → ℕ := fun a _ => if a = 0 then 0 else 1

/-- The fixed point the C7 witness iteration reaches after one step. -/
def zrFix : ℕ → ℚ := fun x => if x = 0 then 0 else 1

/-- One iteration from the all-ones vector on `zrScores` (roster size 2)
yields `zrFix`. -/
theorem zrScores_iter_one : pageRankIter 2 zrScores 1 = zrFix := by
  funext x
  show pageRankStep 2 zrScores (fun _ => 1) x = zrFix x
  unfold pageRankStep unnormWeights
  rw [Finset.sum_range_succ, Finset.sum_range_succ, Finset.sum_range_zero]
  by_cases hx : x = 0
  · subst hx
    norm_num [zrScores, zrFix, ALPHA, Finset.sum_range_succ]
  · have h1 : ∀ j, (zrScores x j : ℚ) = 1 := by intro j; simp [zrScores, hx]
    norm_num [zrFix, hx, h1, ALPHA, Finset.sum_range_succ, zrScores]

/-- `zrFix` is a fixed point of the iteration on `zrScores`. -/
theorem zrScores_step_fix : pageRankStep 2 zrScores zrFix = zrFix := by
  funext x
  unfold pageRankStep unnormWeights
  rw [Finset.sum_range_succ, Finset.sum_range_succ, Finset.sum_range_zero]
  by_cases hx : x = 0
  · subst hx
    norm_num [zrScores, zrFix, ALPHA, Finset.sum_range_succ]
  · have h1 : ∀ j, (zrScores x j : ℚ) = 1 := by intro j; simp [zrScores, hx]
    norm_num [zrFix, hx, h1, ALPHA, Finset.sum_range_succ, zrScores]

/-- All iterates from 1 on are `zrFix`. -/
theorem zrScores_iter (k : ℕ) : pageRankIter 2 zrScores (k + 1) = zrFix := by
  induction k with
  | zero => exact zrScores_iter_one
  | succ k ih =>
    show pageRankStep 2 zrScores (pageRankIter 2 zrScores (k + 1)) = zrFix
    rw [ih, zrScores_step_fix]

/-- Every iteration's normalizing sum on `zrScores` is nonzero. -/
theorem zrScores_sums (k : ℕ) :
    ∑ m ∈ Finset.range 2, unnormWeights 2 zrScores (pageRankIter 2 zrScores k) m ≠ 0 := by
  cases k with
  | zero =>
    show ∑ m ∈ Finset.range 2, unnormWeights 2 zrScores (fun _ => 1) m ≠ 0
    unfold unnormWeights
    norm_num [Finset.sum_range_succ, zrScores, ALPHA]
  | succ k =>
    rw [zrScores_iter k]
    unfold unnormWeights
    norm_num [Finset.sum_range_succ, zrScores, zrFix, ALPHA]

/-- Witness for C7: on `zrScores` (roster size 2) strategy 0's weight is 0
after iterations 1 and 2, and non-increasing from iteration 0 to 1. -/
theorem zero_row_collapse_witness :
    pageRankIter 2 zrScores 1 0 = 0 ∧
    pageRankIter 2 zrScores 2 0 ≤ pageRankIter 2 zrScores 1 0 ∧
    pageRankIter 2 zrScores 1 0 ≤ pageRankIter 2 zrScores 0 0 :=
  ⟨(zero_row_collapse 2 zrScores 0 (fun j _ => by simp [zrScores]) zrScores_sums).1
      1 le_rfl,
   (zero_row_collapse 2 zrScores 0 (fun j _ => by simp [zrScores]) zrScores_sums).2 1,
   (zero_row_collapse 2 zrScores 0 (fun j _ => by simp [zrScores]) zrScores_sums).2 0⟩

/-- The accumulator after `t` trials is the elementwise sum of the first
`t` trial weight vectors. -/
theorem accumRanks_eq_sum (trial : ℕ → ℕ → ℚ) (t i : ℕ) :
    accumRanks trial t i = ∑ u ∈ Finset.range t, trial u i := by
  induction t with
  | zero => simp [accumRanks]
  | succ t ih =>
    show accumRanks trial t i + trial t i = _
    rw [Finset.sum_range_succ, ih]

/-- C8: `main` runs the tournament-plus-ranking trial exactly `PLAYS = 20`
times, sums the 20 weight vectors elementwise into the accumulator without
re-normalizing it, and outputs every one of the 13 strategies paired with
its accumulated weight rendered to 6 decimal places, sorted descending by
that weight. -/
theorem main_aggregator_spec (strats : ℕ → Strategy) (probs : ℕ → ℕ → ℕ → ℚ)
    (draws : ℕ → ℕ → ℕ → ℕ → ℚ) :
    PLAYS = 20 ∧
    NUM_PLAYERS = 13 ∧
    (∀ i, mainAccum strats probs draws i =
      ∑ t ∈ Finset.range 20, mainTrial strats probs draws t i) ∧
    (mainSorted strats probs draws).Perm (mainPairs strats probs draws) ∧
    (mainSorted strats probs draws).Sorted (fun a b => b.2 ≤ a.2) ∧
    mainOutput strats probs draws =
      (mainSorted strats probs draws).map (fun p => (p.1, fmt6 p.2)) := by
  refine ⟨rfl, rfl, ?_, ?_, ?_, rfl⟩
  · intro i
    exact accumRanks_eq_sum (mainTrial strats probs draws) 20 i
  · exact List.mergeSort_perm (mainPairs strats probs draws) _
  · have hs := @List.sorted_mergeSort (ℕ × ℚ) (fun a b => decide (b.2 ≤ a.2))
      (fun a b c hab hbc => by
        simp only [decide_eq_true_eq] at hab hbc ⊢
        exact le_trans hbc hab)
      (fun a b => by
        simp only [Bool.or_eq_true, decide_eq_true_eq]
        exact le_total b.2 a.2)
      (mainPairs strats probs draws)
    exact hs.imp (fun h => of_decide_eq_true h)

end Noisy
